import Mathlib

/-!
Shallow embedding of the rust-path-tracer rendering core
(`src/main.rs`, `src/vec3.rs`), with `f64` idealised as the real
numbers and the process-wide random generator modelled as an explicit
oracle argument.  Definitions mirror the source; theorems settle the
frozen claims about it.
-/

noncomputable section

/-- `Vec3(pub f64, pub f64, pub f64)` from `vec3.rs`; fields named after
the `x()/y()/z()` accessors. -/
@[ext]
structure Vec3 where
  x : ℝ
  y : ℝ
  z : ℝ

/-- `impl ops::Add for Vec3`: component-wise addition. -/
instance : Add Vec3 := ⟨fun a b => ⟨a.x + b.x, a.y + b.y, a.z + b.z⟩⟩

/-- `impl ops::Neg for Vec3`: component-wise negation. -/
instance : Neg Vec3 := ⟨fun a => ⟨-a.x, -a.y, -a.z⟩⟩

/-- `impl ops::Sub for Vec3`: defined in the source as `self + -other`. -/
instance : Sub Vec3 := ⟨fun a b => a + -b⟩

/-- `impl ops::Mul<f64> for Vec3`: scale each component on the right. -/
instance : HMul Vec3 ℝ Vec3 := ⟨fun v s => ⟨v.x * s, v.y * s, v.z * s⟩⟩

/-- `impl ops::Mul<Vec3> for f64`: the source delegates to `other * self`. -/
instance : HMul ℝ Vec3 Vec3 := ⟨fun s v => v * s⟩

/-- Modelled from the spec: component-wise multiplication of two vectors
(colors).  `main.rs` uses it as `scatter.attenuation * color(...)` but the
`Mul<Vec3> for Vec3` impl is not present under `src/`; the spec calls it
"`scatter.attenuation` component-wise multiplied by `radiance(...)`". -/
instance : Mul Vec3 := ⟨fun a b => ⟨a.x * b.x, a.y * b.y, a.z * b.z⟩⟩

/-- `impl ops::Div<f64> for Vec3`: divide each component by the scalar. -/
instance : HDiv Vec3 ℝ Vec3 := ⟨fun v s => ⟨v.x / s, v.y / s, v.z / s⟩⟩

/-- `Vec3::dot`. -/
def Vec3.dot (a b : Vec3) : ℝ := a.x * b.x + a.y * b.y + a.z * b.z

/-- `Vec3::length`: square root of the sum of squared components. -/
def Vec3.length (v : Vec3) : ℝ := Real.sqrt (v.x * v.x + v.y * v.y + v.z * v.z)

/-- `Vec3::unit`: `*self / self.length()`. -/
def Vec3.unit (v : Vec3) : Vec3 := v / v.length

/-- Modelled from the spec: `Vec3::reflect` is called by `Metal::scatter`
in `main.rs` but its definition is not present under `src/`; the spec gives
`reflect(d, n) = d - 2·(d·n)·n`. -/
def Vec3.reflect (d n : Vec3) : Vec3 := d - (2 * d.dot n) * n

/-- `Ray { a, b }` from `main.rs`: `a` is the origin, `b` the direction. -/
structure Ray where
  a : Vec3
  b : Vec3

/-- `Ray::point_at_parameter`: `self.a + (self.b * t)`. -/
def Ray.pointAtParameter (r : Ray) (t : ℝ) : Vec3 := r.a + r.b * t

/-- The two material variants of `main.rs` (`Lambertian`, `Metal`) as a
closed sum, each carrying its fields. -/
inductive Material where
  | lambertian (albedo : Vec3)
  | metal (albedo : Vec3) (fuzz : ℝ)

/-- `Scatter { attenuation, scattered }`. -/
structure Scatter where
  attenuation : Vec3
  scattered : Ray

/-- `HitRecord { t, p, normal, material }`. -/
structure HitRecord where
  t : ℝ
  p : Vec3
  normal : Vec3
  material : Material

/-- `Material::scatter` dispatch.  The call to `random_in_unit_sphere()`
each material makes is modelled by the explicit sample `rnd`. -/
def Material.scatter : Material → Vec3 → Ray → HitRecord → Option Scatter
  | .lambertian albedo, rnd, _, rec =>
      let target := rec.p + rec.normal + rnd
      some ⟨albedo, ⟨rec.p, target - rec.p⟩⟩
  | .metal albedo fuzz, rnd, r, rec =>
      let reflected := (r.b.unit).reflect rec.normal
      let scattered : Ray := ⟨rec.p, reflected + fuzz * rnd⟩
      if scattered.b.dot rec.normal > 0 then some ⟨albedo, scattered⟩ else none

/-- `Sphere { center, radius, material }`. -/
structure Sphere where
  center : Vec3
  radius : ℝ
  material : Material

/-- `let oc = *r.origin() - self.center` in `Sphere::hit`. -/
def sphOC (s : Sphere) (r : Ray) : Vec3 := r.a - s.center

/-- `let a = r.direction().dot(*r.direction())` in `Sphere::hit`. -/
def sphA (r : Ray) : ℝ := r.b.dot r.b

/-- `let b = 2.0 * oc.dot(*r.direction())` in `Sphere::hit`. -/
def sphB (s : Sphere) (r : Ray) : ℝ := 2 * (sphOC s r).dot r.b

/-- `let c = oc.dot(oc) - self.radius * self.radius` in `Sphere::hit`. -/
def sphC (s : Sphere) (r : Ray) : ℝ := (sphOC s r).dot (sphOC s r) - s.radius * s.radius

/-- `let discriminant = b * b - 4. * a * c` in `Sphere::hit`. -/
def sphDisc (s : Sphere) (r : Ray) : ℝ := sphB s r * sphB s r - 4 * sphA r * sphC s r

/-- `let sol_pos = (-b + discriminant.sqrt()) / (2.0 * a)`. -/
def solPos (s : Sphere) (r : Ray) : ℝ :=
  (-sphB s r + Real.sqrt (sphDisc s r)) / (2 * sphA r)

/-- `let sol_neg = (-b - discriminant.sqrt()) / (2.0 * a)`. -/
def solNeg (s : Sphere) (r : Ray) : ℝ :=
  (-sphB s r - Real.sqrt (sphDisc s r)) / (2 * sphA r)

/-- The `let t: Option<f64>` block of `Sphere::hit`: try `sol_neg` inside
the open window first, then `sol_pos`, else none. -/
def sphereHitT (s : Sphere) (r : Ray) (tmin tmax : ℝ) : Option ℝ :=
  if solNeg s r > tmin ∧ solNeg s r < tmax then some (solNeg s r)
  else if solPos s r > tmin ∧ solPos s r < tmax then some (solPos s r)
  else none

/-- `Sphere::hit`: early return on `discriminant <= 0`, otherwise build the
`HitRecord` from the chosen root. -/
def sphereHit (s : Sphere) (r : Ray) (tmin tmax : ℝ) : Option HitRecord :=
  if sphDisc s r ≤ 0 then none
  else
    match sphereHitT s r tmin tmax with
    | some tv =>
        let p := r.pointAtParameter tv
        some ⟨tv, p, (p - s.center) / s.radius, s.material⟩
    | none => none

/-- `World { hittables }`: the scene's primitives are the spheres of
`main.rs`, kept in order. -/
def World := List Sphere

/-- The fold underlying `Iterator::min_by_key` on `OrderedFloat(r.t)`:
keep the earlier record unless a later one is strictly smaller. -/
def minFold (h : HitRecord) (t : List HitRecord) : HitRecord :=
  t.foldl (fun acc x => if x.t < acc.t then x else acc) h

/-- `min_by_key` over a list of hit records, comparing by `t`. -/
def minByT : List HitRecord → Option HitRecord
  | [] => none
  | h :: t => some (minFold h t)

/-- `World::hit`: `filter_map` every primitive's hit with the same window,
then take the minimum by `t`. -/
def worldHit (w : World) (r : Ray) (tmin tmax : ℝ) : Option HitRecord :=
  minByT (w.filterMap fun s => sphereHit s r tmin tmax)

/-- `std::f64::MAX`, the upper bound `color` passes to `world.hit`. -/
def f64MAX : ℝ := 2 ^ 1024 - 2 ^ 971

/-- The no-hit branch of `color`: the vertical background gradient. -/
def bgColor (r : Ray) : Vec3 :=
  let unitDirection := r.b.unit
  let t := 0.5 * (unitDirection.y + 1.0)
  (1.0 - t) * Vec3.mk 1.0 1.0 1.0 + t * Vec3.mk 0.5 0.7 1.0

/-- `color(r, world, depth)` from `main.rs`.  The random sample each bounce
draws is supplied by the oracle `rand`, indexed by the depth at which it is
consumed.  Recursion is on `50 - depth`, mirroring the `depth < 50` guard. -/
def color (w : World) (rand : ℕ → Vec3) (r : Ray) (depth : ℕ) : Vec3 :=
  match worldHit w r (1 / 10000) f64MAX with
  | some rec =>
      match rec.material.scatter (rand depth) r rec with
      | some sc =>
          if _h : depth < 50 then
            sc.attenuation * color w rand sc.scattered (depth + 1)
          else Vec3.mk 0 0 0
      | none => Vec3.mk 0 0 0
  | none => bgColor r
termination_by 50 - depth
decreasing_by omega

/-- Fuel-indexed approximant of `color`: each call consumes one unit of
fuel and exhausted fuel yields `none`.  Used to bound the recursion
depth of `color`. -/
def colorFuel (w : World) (rand : ℕ → Vec3) : ℕ → Ray → ℕ → Option Vec3
  | 0, _, _ => none
  | n + 1, r, depth =>
      match worldHit w r (1 / 10000) f64MAX with
      | some rec =>
          match rec.material.scatter (rand depth) r rec with
          | some sc =>
              if depth < 50 then
                (colorFuel w rand n sc.scattered (depth + 1)).map (sc.attenuation * ·)
              else some (Vec3.mk 0 0 0)
          | none => some (Vec3.mk 0 0 0)
      | none => some (bgColor r)

/-- `Camera { origin, lower_left_corner, horizontal, vertical }`. -/
structure Camera where
  origin : Vec3
  lowerLeftCorner : Vec3
  horizontal : Vec3
  vertical : Vec3

/-- `Camera::get_ray` exactly as written in `main.rs`: the direction is
`lower_left_corner + u * horizontal + v * vertical` (no `- origin` term). -/
def Camera.getRay (c : Camera) (u v : ℝ) : Ray :=
  ⟨c.origin, c.lowerLeftCorner + u * c.horizontal + v * c.vertical⟩

/-- One channel of the quantisation in `main`:
`(255.99 * channel.sqrt()) as u8`, with Rust's saturating float-to-int
cast (truncate toward zero, clamp to `[0, 255]`). -/
def quantize (x : ℝ) : ℕ := min 255 (⌊(255.99 : ℝ) * Real.sqrt x⌋).toNat

/-- The per-pixel body of the render loop in `main`: accumulate `ns`
jittered samples of `color`, average, gamma-correct and quantise each
channel, and append the constant alpha byte 255.  The jitters drawn from
`rand::random` are supplied by the oracle `jit`, indexed by pixel and
sample number. -/
def renderPixel (w : World) (rand : ℕ → Vec3) (cam : Camera) (nx ny ns : ℕ)
    (jit : ℕ → ℕ → ℕ → ℝ × ℝ) (i j : ℕ) : List ℕ :=
  let col :=
    ((List.range ns).foldl
      (fun acc k =>
        let u := ((i : ℝ) + (jit i j k).1) / (nx : ℝ)
        let v := ((j : ℝ) + (jit i j k).2) / (ny : ℝ)
        acc + color w rand (cam.getRay u v) 0)
      (Vec3.mk 0 0 0)) / (ns : ℝ)
  [quantize col.x, quantize col.y, quantize col.z, 255]

/-- The nested pixel loop of `main`: `j` runs from `ny - 1` down to `0`,
`i` from `0` to `nx - 1`, pushing each pixel's four bytes in order. -/
def imgData (w : World) (rand : ℕ → Vec3) (cam : Camera) (nx ny ns : ℕ)
    (jit : ℕ → ℕ → ℕ → ℝ × ℝ) : List ℕ :=
  ((List.range ny).reverse).flatMap fun j =>
    (List.range nx).flatMap fun i =>
      renderPixel w rand cam nx ny ns jit i j

/-- Concrete fixture: a unit sphere at the origin with the first
Lambertian albedo of the sample scene. -/
def sFix : Sphere := ⟨Vec3.mk 0 0 0, 1, .lambertian (Vec3.mk 0.8 0.3 0.3)⟩

/-- Concrete fixture: a ray starting at `(0, 0, -3)` aimed along `+z`,
straight at `sFix`. -/
def rFix : Ray := ⟨Vec3.mk 0 0 (-3), Vec3.mk 0 0 1⟩

/-- The hit record `sphereHit sFix rFix` produces inside the window
`(1/10000, f64MAX)`: first root `t = 2` at point `(0, 0, -1)`. -/
def recFix : HitRecord :=
  ⟨2, Vec3.mk 0 0 (-1), Vec3.mk 0 0 (-1), sFix.material⟩

/-- A degenerate random oracle for witnesses: every sample is the zero
vector (a legal point of the open unit ball). -/
def randFix : ℕ → Vec3 := fun _ => Vec3.mk 0 0 0

@[simp]
theorem Vec3.add_def (a b : Vec3) : a + b = ⟨a.x + b.x, a.y + b.y, a.z + b.z⟩ := rfl

@[simp]
theorem Vec3.neg_def (a : Vec3) : -a = ⟨-a.x, -a.y, -a.z⟩ := rfl

@[simp]
theorem Vec3.sub_def (a b : Vec3) : a - b = a + -b := rfl

@[simp]
theorem Vec3.smulR_def (v : Vec3) (s : ℝ) : v * s = ⟨v.x * s, v.y * s, v.z * s⟩ := rfl

@[simp]
theorem Vec3.smulL_def (s : ℝ) (v : Vec3) : s * v = v * s := rfl

@[simp]
theorem Vec3.mul_def (a b : Vec3) : a * b = ⟨a.x * b.x, a.y * b.y, a.z * b.z⟩ := rfl

@[simp]
theorem Vec3.div_def (v : Vec3) (s : ℝ) : v / s = ⟨v.x / s, v.y / s, v.z / s⟩ := rfl

/-- C10: scalar multiplication of a vector commutes across operand order:
`s * v` equals `v * s`, both producing the component-wise scaling
`(s*x, s*y, s*z)`. -/
theorem c10_scalar_mul_comm (s : ℝ) (v : Vec3) :
    s * v = v * s ∧ v * s = Vec3.mk (s * v.x) (s * v.y) (s * v.z) := by
  refine ⟨rfl, ?_⟩
  simp [mul_comm]

/-- C5: the claim states `Camera::get_ray` returns direction
`lower_left_corner + u*horizontal + v*vertical - origin`; the code omits
the `- origin` term.  At a camera with origin `(1,2,3)` and `u = v = 0`
the code yields `(-2,-1,-1)` while the claimed formula yields
`(-3,-3,-4)`. -/
theorem c5_get_ray_code_bug :
    (Camera.getRay ⟨Vec3.mk 1 2 3, Vec3.mk (-2) (-1) (-1), Vec3.mk 4 0 0, Vec3.mk 0 2 0⟩
        0 0).b = Vec3.mk (-2) (-1) (-1) ∧
      Vec3.mk (-2) (-1) (-1) ≠
        Vec3.mk (-2) (-1) (-1) + (0 : ℝ) * Vec3.mk 4 0 0 + (0 : ℝ) * Vec3.mk 0 2 0 -
          Vec3.mk 1 2 3 := by
  constructor
  · simp [Camera.getRay]
  · intro h
    rw [Vec3.mk.injEq] at h
    norm_num at h

/-- C8 counterexample: strict monotonicity of the gamma-corrected 8-bit
output fails: `0 < 1/10^8` are distinct linear values in `[0,1]` but both
quantise to byte `0`. -/
theorem c8_counterexample :
    (0 : ℝ) < 1 / 10 ^ 8 ∧ (0 : ℝ) ≤ 0 ∧ (1 / 10 ^ 8 : ℝ) ≤ 1 ∧
      ¬ quantize 0 < quantize (1 / 10 ^ 8) := by
  refine ⟨by norm_num, le_refl 0, by norm_num, ?_⟩
  have h0 : quantize 0 = 0 := by
    simp [quantize]
  have h1 : quantize (1 / 10 ^ 8) = 0 := by
    rw [quantize, show (1 / 10 ^ 8 : ℝ) = (1 / 10 ^ 4) ^ 2 by norm_num,
      Real.sqrt_sq (by norm_num)]
    norm_num [Int.floor_eq_zero_iff, Set.mem_Ico]
  rw [h0, h1]
  omega

/-- C8 (amended): for pre-gamma linear channel values `0 ≤ a < b ≤ 1`, the
gamma-corrected quantised 8-bit output of `b` is greater than or equal to
that of `a` (strictness is destroyed by 8-bit quantisation). -/
theorem c8_quantize_mono (a b : ℝ) (_ha : 0 ≤ a) (hab : a < b) (_hb : b ≤ 1) :
    quantize a ≤ quantize b := by
  have h1 : Real.sqrt a ≤ Real.sqrt b := Real.sqrt_le_sqrt hab.le
  have h2 : (255.99 : ℝ) * Real.sqrt a ≤ 255.99 * Real.sqrt b :=
    mul_le_mul_of_nonneg_left h1 (by norm_num)
  exact min_le_min (le_refl 255) (Int.toNat_le_toNat (Int.floor_le_floor h2))

/-- C8 witness: the amended monotonicity at the concrete pair `0 < 1`. -/
theorem c8_quantize_mono_witness : quantize 0 ≤ quantize 1 :=
  c8_quantize_mono 0 1 (by norm_num) (by norm_num) (by norm_num)

theorem sphereHitT_some_window (s : Sphere) (r : Ray) (tmin tmax tv : ℝ)
    (h : sphereHitT s r tmin tmax = some tv) : tmin < tv ∧ tv < tmax := by
  unfold sphereHitT at h
  split_ifs at h with h1 h2
  · injection h with h'
    subst h'
    exact ⟨h1.1, h1.2⟩
  · injection h with h'
    subst h'
    exact ⟨h2.1, h2.2⟩

theorem sphereHit_some_window (s : Sphere) (r : Ray) (tmin tmax : ℝ) (rec : HitRecord)
    (h : sphereHit s r tmin tmax = some rec) : tmin < rec.t ∧ rec.t < tmax := by
  unfold sphereHit at h
  by_cases hd : sphDisc s r ≤ 0
  · rw [if_pos hd] at h
    exact absurd h (by simp)
  · rw [if_neg hd] at h
    cases hT : sphereHitT s r tmin tmax with
    | none =>
        rw [hT] at h
        exact absurd h (by simp)
    | some tv =>
        rw [hT] at h
        injection h with h'
        have hw := sphereHitT_some_window s r tmin tmax tv hT
        rw [← h']
        exact hw

/-- C1: for bounds `t_min < t_max`, `Sphere::hit` returns none when the
discriminant is `≤ 0`; otherwise it returns the record built from the
smaller root `sol_neg` if that root lies strictly inside the window, else
from `sol_pos` if that does, else none; and any returned record has `t`
strictly inside `(t_min, t_max)`. -/
theorem c1_sphere_hit (s : Sphere) (r : Ray) (tmin tmax : ℝ) (_h : tmin < tmax) :
    (sphDisc s r ≤ 0 → sphereHit s r tmin tmax = none) ∧
    (0 < sphDisc s r →
      (tmin < solNeg s r ∧ solNeg s r < tmax →
        sphereHit s r tmin tmax =
          some ⟨solNeg s r, r.pointAtParameter (solNeg s r),
            (r.pointAtParameter (solNeg s r) - s.center) / s.radius, s.material⟩) ∧
      (¬(tmin < solNeg s r ∧ solNeg s r < tmax) →
        (tmin < solPos s r ∧ solPos s r < tmax →
          sphereHit s r tmin tmax =
            some ⟨solPos s r, r.pointAtParameter (solPos s r),
              (r.pointAtParameter (solPos s r) - s.center) / s.radius, s.material⟩) ∧
        (¬(tmin < solPos s r ∧ solPos s r < tmax) →
          sphereHit s r tmin tmax = none))) ∧
    (∀ rec, sphereHit s r tmin tmax = some rec → tmin < rec.t ∧ rec.t < tmax) := by
  refine ⟨?_, ?_, fun rec h => sphereHit_some_window s r tmin tmax rec h⟩
  · intro hd
    unfold sphereHit
    rw [if_pos hd]
  · intro hd
    have hd' : ¬ sphDisc s r ≤ 0 := not_le.mpr hd
    refine ⟨?_, fun hneg => ⟨?_, fun hpos => ?_⟩⟩
    · intro hneg
      unfold sphereHit sphereHitT
      rw [if_neg hd', if_pos hneg]
    · intro hpos
      unfold sphereHit sphereHitT
      rw [if_neg hd', if_neg hneg, if_pos hpos]
    · unfold sphereHit sphereHitT
      rw [if_neg hd', if_neg hneg, if_neg hpos]

theorem sphDisc_fix : sphDisc sFix rFix = 4 := by
  norm_num [sphDisc, sphA, sphB, sphC, sphOC, sFix, rFix, Vec3.dot]

theorem solNeg_fix : solNeg sFix rFix = 2 := by
  rw [solNeg, sphDisc_fix, show Real.sqrt 4 = 2 by
    rw [show (4 : ℝ) = 2 ^ 2 by norm_num, Real.sqrt_sq (by norm_num)]]
  norm_num [sphB, sphA, sphOC, sFix, rFix, Vec3.dot]

/-- C1 witness: the fixture sphere and ray, window `(1/10000, f64MAX)`:
the smaller root `t = 2` is accepted. -/
theorem c1_sphere_hit_witness :
    sphereHit sFix rFix (1 / 10000) f64MAX =
      some ⟨solNeg sFix rFix, rFix.pointAtParameter (solNeg sFix rFix),
        (rFix.pointAtParameter (solNeg sFix rFix) - sFix.center) / sFix.radius,
        sFix.material⟩ := by
  have h := (c1_sphere_hit sFix rFix (1 / 10000) f64MAX
    (by norm_num [f64MAX])).2.1 (by rw [sphDisc_fix]; norm_num)
  exact h.1 (by rw [solNeg_fix]; constructor <;> norm_num [f64MAX])

theorem minFold_cons (h a : HitRecord) (t : List HitRecord) :
    minFold h (a :: t) = minFold (if a.t < h.t then a else h) t := rfl

theorem minFold_mem (t : List HitRecord) : ∀ h : HitRecord, minFold h t ∈ h :: t := by
  induction t with
  | nil => intro h; simp [minFold]
  | cons a t ih =>
      intro h
      rw [minFold_cons]
      by_cases hc : a.t < h.t
      · rw [if_pos hc]
        have := ih a
        rcases List.mem_cons.mp this with h1 | h1
        · rw [h1]; simp
        · simp [h1]
      · rw [if_neg hc]
        have := ih h
        rcases List.mem_cons.mp this with h1 | h1
        · rw [h1]; simp
        · simp [h1]

theorem minFold_le (t : List HitRecord) :
    ∀ h : HitRecord, ∀ x ∈ h :: t, (minFold h t).t ≤ x.t := by
  induction t with
  | nil =>
      intro h x hx
      rcases List.mem_cons.mp hx with h1 | h1
      · rw [h1]; exact le_refl _
      · exact absurd h1 (by simp)
  | cons a t ih =>
      intro h x hx
      rw [minFold_cons]
      have hle : (if a.t < h.t then a else h).t ≤ h.t ∧ (if a.t < h.t then a else h).t ≤ a.t := by
        by_cases hc : a.t < h.t
        · rw [if_pos hc]; exact ⟨hc.le, le_refl _⟩
        · rw [if_neg hc]; exact ⟨le_refl _, not_lt.mp hc⟩
      have hhead : (minFold (if a.t < h.t then a else h) t).t ≤ (if a.t < h.t then a else h).t :=
        ih _ _ (by simp)
      rcases List.mem_cons.mp hx with h1 | h1
      · rw [h1]; exact hhead.trans hle.1
      · rcases List.mem_cons.mp h1 with h2 | h2
        · rw [h2]; exact hhead.trans hle.2
        · exact ih _ x (List.mem_cons.mpr (Or.inr h2))

theorem minByT_none_iff (l : List HitRecord) : minByT l = none ↔ l = [] := by
  cases l with
  | nil => simp [minByT]
  | cons h t => simp [minByT]

theorem minByT_some (l : List HitRecord) (rec : HitRecord) (h : minByT l = some rec) :
    rec ∈ l ∧ ∀ x ∈ l, rec.t ≤ x.t := by
  cases l with
  | nil => exact absurd h (by simp [minByT])
  | cons a t =>
      unfold minByT at h
      injection h with h'
      rw [← h']
      exact ⟨minFold_mem t a, minFold_le t a⟩

/-- C2: `World::hit` queries every primitive with the same window
(`filter_map` of each sphere's hit), returns none exactly when no
primitive reports a hit, and any returned hit is among the primitive hits
with the smallest `t`. -/
theorem c2_world_hit (w : World) (r : Ray) (tmin tmax : ℝ) :
    (worldHit w r tmin tmax = none ↔
      (w.filterMap fun s => sphereHit s r tmin tmax) = []) ∧
    ∀ rec, worldHit w r tmin tmax = some rec →
      rec ∈ (w.filterMap fun s => sphereHit s r tmin tmax) ∧
      ∀ x ∈ (w.filterMap fun s => sphereHit s r tmin tmax), rec.t ≤ x.t := by
  exact ⟨minByT_none_iff _, fun rec h => minByT_some _ rec h⟩

theorem sphereHit_fix : sphereHit sFix rFix (1 / 10000) f64MAX = some recFix := by
  unfold sphereHit sphereHitT
  rw [if_neg (by rw [sphDisc_fix]; norm_num),
    if_pos (by rw [solNeg_fix]; constructor <;> norm_num [f64MAX]), solNeg_fix]
  simp [Ray.pointAtParameter, rFix, sFix, recFix]
  norm_num

theorem worldHit_fix : worldHit [sFix] rFix (1 / 10000) f64MAX = some recFix := by
  unfold worldHit
  rw [show ([sFix].filterMap fun s => sphereHit s rFix (1 / 10000) f64MAX) = [recFix] by
    rw [List.filterMap_cons, sphereHit_fix]
    rfl]
  rfl

/-- C2 witness: the singleton world around the fixture sphere returns the
fixture record, which is a primitive hit of minimal `t`. -/
theorem c2_world_hit_witness :
    worldHit [sFix] rFix (1 / 10000) f64MAX = some recFix ∧
    recFix ∈ ([sFix].filterMap fun s => sphereHit s rFix (1 / 10000) f64MAX) ∧
    ∀ x ∈ ([sFix].filterMap fun s => sphereHit s rFix (1 / 10000) f64MAX),
      recFix.t ≤ x.t :=
  ⟨worldHit_fix, (c2_world_hit [sFix] rFix (1 / 10000) f64MAX).2 recFix worldHit_fix⟩

/-- C9: over a world of spheres, any hit `World::hit` returns has `t`
strictly inside the `(t_min, t_max)` window: the single-sphere window
contract is preserved by the nearest-hit aggregation. -/
theorem c9_world_hit_window (w : World) (r : Ray) (tmin tmax : ℝ) (_h : tmin < tmax) :
    ∀ rec, worldHit w r tmin tmax = some rec → tmin < rec.t ∧ rec.t < tmax := by
  intro rec h
  unfold worldHit at h
  have hm := (minByT_some _ rec h).1
  obtain ⟨s, _hs, hhit⟩ := List.mem_filterMap.mp hm
  exact sphereHit_some_window s r tmin tmax rec hhit

/-- C9 witness: the fixture world's hit `t = 2` lies inside
`(1/10000, f64MAX)`. -/
theorem c9_world_hit_window_witness :
    (1 / 10000 : ℝ) < recFix.t ∧ recFix.t < f64MAX :=
  c9_world_hit_window [sFix] rFix (1 / 10000) f64MAX (by norm_num [f64MAX])
    recFix worldHit_fix

/-- C3: `color` terminates with recursion depth bounded by the cap: fuel
`n` exceeding `50 - depth` suffices for the fuel-indexed approximant to
agree with `color` (each recursive call raises `depth` by exactly 1 and
none is made at `depth ≥ 50`); and whenever a hit's material scatter
returns none or the depth cap is reached, the result is black. -/
theorem c3_color_depth (w : World) (rand : ℕ → Vec3) :
    (∀ (n : ℕ) (r : Ray) (depth : ℕ), 50 - depth < n →
      colorFuel w rand n r depth = some (color w rand r depth)) ∧
    (∀ (r : Ray) (depth : ℕ) (rec : HitRecord),
      worldHit w r (1 / 10000) f64MAX = some rec →
      rec.material.scatter (rand depth) r rec = none ∨ 50 ≤ depth →
      color w rand r depth = Vec3.mk 0 0 0) := by
  constructor
  · intro n
    induction n with
    | zero => intro r depth h; exact absurd h (Nat.not_lt_zero _)
    | succ n ih =>
        intro r depth h
        rw [colorFuel, color]
        cases hw : worldHit w r (1 / 10000) f64MAX with
        | none => rfl
        | some rec =>
            simp only [hw]
            cases hs : rec.material.scatter (rand depth) r rec with
            | none => rfl
            | some sc =>
                simp only [hs]
                by_cases hd : depth < 50
                · rw [if_pos hd, dif_pos hd, ih sc.scattered (depth + 1) (by omega)]
                  rfl
                · rw [if_neg hd, dif_neg hd]
  · intro r depth rec hw hcase
    rw [color]
    simp only [hw]
    rcases hcase with hnone | hge
    · simp only [hnone]
    · cases hs : rec.material.scatter (rand depth) r rec with
      | none => rfl
      | some sc =>
          simp only [hs]
          rw [dif_neg (by omega)]

/-- C3 witness: at the depth cap the approximant needs one unit of fuel,
and the fixture hit at `depth = 50` yields black. -/
theorem c3_color_depth_witness :
    colorFuel [sFix] randFix 1 rFix 50 = some (color [sFix] randFix rFix 50) ∧
    color [sFix] randFix rFix 50 = Vec3.mk 0 0 0 :=
  ⟨(c3_color_depth [sFix] randFix).1 1 rFix 50 (by omega),
   (c3_color_depth [sFix] randFix).2 rFix 50 recFix worldHit_fix (Or.inr (by omega))⟩

/-- C4: when the ray hits nothing, `color` is the vertical background
gradient `(1-t)·white + t·(0.5, 0.7, 1.0)` with
`t = 0.5·(unit(direction).y + 1)`, regardless of depth; straight up it is
exactly `(0.5, 0.7, 1.0)` and along `+x` exactly `(0.75, 0.85, 1.0)`. -/
theorem c4_background :
    (∀ (w : World) (rand : ℕ → Vec3) (r : Ray) (depth : ℕ),
      worldHit w r (1 / 10000) f64MAX = none →
      color w rand r depth =
        (1 - 0.5 * ((r.b.unit).y + 1)) * Vec3.mk 1 1 1 +
          (0.5 * ((r.b.unit).y + 1)) * Vec3.mk 0.5 0.7 1) ∧
    (∀ (rand : ℕ → Vec3) (o : Vec3) (depth : ℕ),
      color [] rand ⟨o, Vec3.mk 0 1 0⟩ depth = Vec3.mk 0.5 0.7 1) ∧
    (∀ (rand : ℕ → Vec3) (o : Vec3) (depth : ℕ),
      color [] rand ⟨o, Vec3.mk 1 0 0⟩ depth = Vec3.mk 0.75 0.85 1) := by
  have hbg : ∀ (w : World) (rand : ℕ → Vec3) (r : Ray) (depth : ℕ),
      worldHit w r (1 / 10000) f64MAX = none → color w rand r depth = bgColor r := by
    intro w rand r depth hw
    rw [color]
    simp only [hw]
  refine ⟨?_, ?_, ?_⟩
  · intro w rand r depth hw
    rw [hbg w rand r depth hw]
    unfold bgColor
    refine Vec3.ext ?_ ?_ ?_ <;> simp <;> ring
  · intro rand o depth
    rw [hbg [] rand ⟨o, Vec3.mk 0 1 0⟩ depth rfl]
    unfold bgColor Vec3.unit Vec3.length
    simp
    norm_num
  · intro rand o depth
    rw [hbg [] rand ⟨o, Vec3.mk 1 0 0⟩ depth rfl]
    unfold bgColor Vec3.unit Vec3.length
    simp
    norm_num

/-- C4 witness: an unnormalised upward ray in the empty world evaluates
to the gradient formula. -/
theorem c4_background_witness :
    color [] randFix ⟨Vec3.mk 0 0 0, Vec3.mk 0 2 0⟩ 7 =
      (1 - 0.5 * (((Ray.mk (Vec3.mk 0 0 0) (Vec3.mk 0 2 0)).b.unit).y + 1)) * Vec3.mk 1 1 1 +
        (0.5 * (((Ray.mk (Vec3.mk 0 0 0) (Vec3.mk 0 2 0)).b.unit).y + 1)) * Vec3.mk 0.5 0.7 1 :=
  c4_background.1 [] randFix ⟨Vec3.mk 0 0 0, Vec3.mk 0 2 0⟩ 7 rfl

/-- C6: `Metal::scatter` returns a scatter exactly when the
fuzz-perturbed reflected direction has strictly positive dot product with
the hit normal; any returned scatter has attenuation the metal's albedo,
originates at the hit point, and carries that direction. -/
theorem c6_metal_scatter (albedo : Vec3) (fuzz : ℝ) (rnd : Vec3) (r : Ray)
    (rec : HitRecord) :
    ((∃ sc, (Material.metal albedo fuzz).scatter rnd r rec = some sc) ↔
      0 < ((r.b.unit).reflect rec.normal + fuzz * rnd).dot rec.normal) ∧
    (∀ sc, (Material.metal albedo fuzz).scatter rnd r rec = some sc →
      sc.attenuation = albedo ∧ sc.scattered.a = rec.p ∧
      sc.scattered.b = (r.b.unit).reflect rec.normal + fuzz * rnd) := by
  constructor
  · constructor
    · rintro ⟨sc, hsc⟩
      by_contra hneg
      rw [show (Material.metal albedo fuzz).scatter rnd r rec = none by
        simp only [Material.scatter]
        rw [if_neg hneg]] at hsc
      exact Option.noConfusion hsc
    · intro hd
      refine ⟨⟨albedo, ⟨rec.p, (r.b.unit).reflect rec.normal + fuzz * rnd⟩⟩, ?_⟩
      simp only [Material.scatter]
      rw [if_pos hd]
  · intro sc hsc
    simp only [Material.scatter] at hsc
    split_ifs at hsc with hd
    injection hsc with h'
    rw [← h']
    exact ⟨rfl, rfl, rfl⟩

/-- C6 witness: a head-on ray with zero fuzz reflects back along the
normal and is accepted. -/
theorem c6_metal_scatter_witness :
    ∃ sc, (Material.metal (Vec3.mk 0.8 0.6 0.2) 0).scatter (Vec3.mk 0 0 0)
      ⟨Vec3.mk 0 0 0, Vec3.mk 0 0 1⟩
      ⟨1, Vec3.mk 0 0 0, Vec3.mk 0 0 (-1), Material.metal (Vec3.mk 0.8 0.6 0.2) 0⟩ =
        some sc := by
  apply (c6_metal_scatter (Vec3.mk 0.8 0.6 0.2) 0 (Vec3.mk 0 0 0)
    ⟨Vec3.mk 0 0 0, Vec3.mk 0 0 1⟩
    ⟨1, Vec3.mk 0 0 0, Vec3.mk 0 0 (-1), Material.metal (Vec3.mk 0.8 0.6 0.2) 0⟩).1.mpr
  unfold Vec3.reflect Vec3.unit Vec3.length Vec3.dot
  simp

theorem flatMap_length_const {α : Type} (f : α → List ℕ) (c : ℕ) :
    ∀ l : List α, (∀ x ∈ l, (f x).length = c) → (l.flatMap f).length = l.length * c := by
  intro l
  induction l with
  | nil => intro _; simp
  | cons a t ih =>
      intro hl
      rw [List.flatMap_cons, List.length_append, ih (fun x hx => hl x (by simp [hx])),
        hl a (by simp), List.length_cons, Nat.succ_mul]
      omega

theorem flatMap_getElem_const {α : Type} (f : α → List ℕ) (c : ℕ) :
    ∀ (l : List α) (q o : ℕ), (∀ x ∈ l, (f x).length = c) →
      ∀ (hq : q < l.length), o < c →
        (l.flatMap f)[c * q + o]? = (f l[q])[o]? := by
  intro l
  induction l with
  | nil => intro q o _ hq _; simp at hq
  | cons a t ih =>
      intro q o hl hq ho
      rw [List.flatMap_cons]
      cases q with
      | zero =>
          have hlen : (f a).length = c := hl a (by simp)
          rw [show c * 0 + o = o by omega, List.getElem?_append_left (by omega)]
          rfl
      | succ q =>
          have hlen : (f a).length = c := hl a (by simp)
          have hidx : c * (q + 1) + o = (f a).length + (c * q + o) := by
            rw [hlen]; ring
          rw [hidx, List.getElem?_append_right (by omega), Nat.add_sub_cancel_left,
            ih q o (fun x hx => hl x (by simp [hx])) (by simpa using hq) ho]
          rfl

theorem renderPixel_length (w : World) (rand : ℕ → Vec3) (cam : Camera)
    (nx ny ns : ℕ) (jit : ℕ → ℕ → ℕ → ℝ × ℝ) (i j : ℕ) :
    (renderPixel w rand cam nx ny ns jit i j).length = 4 := rfl

/-- C7: the rendered buffer has exactly `nx * ny * 4` bytes; the four
bytes of buffer pixel `(row rr, column cc)` are the rendered pixel at
`i = cc`, `j = ny - 1 - rr` (row 0 is the top visual row, highest `j`);
and every fourth byte, the alpha channel, is 255. -/
theorem c7_img_data (w : World) (rand : ℕ → Vec3) (cam : Camera) (ns : ℕ)
    (jit : ℕ → ℕ → ℕ → ℝ × ℝ) (nx ny : ℕ) :
    (imgData w rand cam nx ny ns jit).length = nx * ny * 4 ∧
    (∀ rr cc o, rr < ny → cc < nx → o < 4 →
      (imgData w rand cam nx ny ns jit)[(rr * nx + cc) * 4 + o]? =
        (renderPixel w rand cam nx ny ns jit cc (ny - 1 - rr))[o]?) ∧
    (∀ k, k < nx * ny →
      (imgData w rand cam nx ny ns jit)[4 * k + 3]? = some 255) := by
  have hrow : ∀ j, ((List.range nx).flatMap fun i =>
      renderPixel w rand cam nx ny ns jit i j).length = nx * 4 := by
    intro j
    rw [flatMap_length_const _ 4 _ (fun x _ => renderPixel_length w rand cam nx ny ns jit x j),
      List.length_range]
  have hpix : ∀ rr cc o, rr < ny → cc < nx → o < 4 →
      (imgData w rand cam nx ny ns jit)[(rr * nx + cc) * 4 + o]? =
        (renderPixel w rand cam nx ny ns jit cc (ny - 1 - rr))[o]? := by
    intro rr cc o hrr hcc ho
    unfold imgData
    have hrr' : rr < ((List.range ny).reverse).length := by simpa using hrr
    have hidx : (rr * nx + cc) * 4 + o = (nx * 4) * rr + (4 * cc + o) := by ring
    rw [hidx,
      flatMap_getElem_const _ (nx * 4) _ rr (4 * cc + o) (fun j _ => hrow j) hrr'
        (by omega)]
    have hrev : ((List.range ny).reverse)[rr] = ny - 1 - rr := by
      rw [List.getElem_reverse, List.getElem_range]
      simp
    rw [hrev,
      flatMap_getElem_const _ 4 _ cc o
        (fun i _ => renderPixel_length w rand cam nx ny ns jit i (ny - 1 - rr))
        (by simpa using hcc) ho,
      List.getElem_range]
  refine ⟨?_, hpix, ?_⟩
  · unfold imgData
    rw [flatMap_length_const _ (nx * 4) _ (fun j _ => hrow j)]
    simp
    ring
  · intro k hk
    have hnx : 0 < nx := by
      rcases Nat.eq_zero_or_pos nx with h0 | h0
      · rw [h0] at hk; simp at hk
      · exact h0
    have hdiv : k / nx < ny := Nat.div_lt_of_lt_mul (by omega)
    have hmod : k % nx < nx := Nat.mod_lt _ hnx
    have hke : ((k / nx) * nx + k % nx) * 4 + 3 = 4 * k + 3 := by
      have := Nat.div_add_mod k nx
      rw [Nat.mul_comm (k / nx) nx]
      omega
    rw [← hke, hpix (k / nx) (k % nx) 3 hdiv hmod (by omega)]
    rfl

/-- C7 witness: a 1-by-1 render of the empty world: byte 3 (the alpha
channel of the single pixel) is 255. -/
theorem c7_img_data_witness :
    (imgData [] randFix ⟨Vec3.mk 0 0 0, Vec3.mk 0 1 0, Vec3.mk 0 0 0, Vec3.mk 0 0 0⟩
      1 1 1 (fun _ _ _ => ((0 : ℝ), (0 : ℝ))))[3]? = some 255 :=
  (c7_img_data [] randFix ⟨Vec3.mk 0 0 0, Vec3.mk 0 1 0, Vec3.mk 0 0 0, Vec3.mk 0 0 0⟩
    1 (fun _ _ _ => ((0 : ℝ), (0 : ℝ))) 1 1).2.2 0 (by omega)

end
